import Mathlib

/-!
# Distributed array summation over MPI

A shallow embedding of the two programs of `Assignment_3`:

* `sum_array_mpi(defined).c` (variant a): every rank holds the same array and
  computes its own slice bounds `start`, `end`;
* `sum_array_mpi.c` (variant b): rank 0 reads `N` and the array, validates
  `N % size`, and the array is scattered in chunks of `N / size` elements.

A C `int` is modelled as an `Int`.  `/` and `%` on `int` are the truncating
`Int.tdiv` and `Int.tmod`, undefined for a zero divisor.  The semantics of the
accumulating `+=` and of the `MPI_SUM` combinator is a parameter `add` of the
model, instantiated by exact addition (`exactAdd`) and by 32-bit two's
complement addition (`wrapAdd32`).  Code whose behaviour is undefined (division
by zero, an array read outside the array, a collective called with a negative
count) yields `none` / `Outcome.undefined`.

The MPI collectives are modelled after their meaning in the MPI standard, with
the list of ranks `0, 1, ..., size - 1` standing for the process group.
-/

namespace SumArrayMpi

/-! ## C integer arithmetic -/

/-- C `a / b` on `int`: truncating division, undefined for `b == 0`. -/
def cDiv (a b : Int) : Option Int :=
  if b = 0 then none else some (a.tdiv b)

/-- C `a % b` on `int`: remainder of the truncating division, undefined for `b == 0`. -/
def cMod (a b : Int) : Option Int :=
  if b = 0 then none else some (a.tmod b)

/-- Exact (unbounded) integer addition. -/
def exactAdd (a b : Int) : Int := a + b

/-- The representative of `x` modulo `2^32` in the signed range `[-2^31, 2^31)`. -/
def wrap32 (x : Int) : Int := (x + 2 ^ 31) % 2 ^ 32 - 2 ^ 31

/-- 32-bit signed addition wrapping modulo `2^32`. -/
def wrapAdd32 (a b : Int) : Int := wrap32 (a + b)

/-! ## Arrays and the summation loop -/

/-- The array read `arr[i]`; `none` when `i` is outside the array. -/
def arrGet (arr : List Int) (i : Int) : Option Int :=
  if 0 ≤ i then arr[i.toNat]? else none

/-- The loop `for (; i < end; i++) local_sum += arr[i];` entered with index `i`
and accumulator `local_sum`; the result is the final `local_sum`. -/
def sumLoop (add : Int → Int → Int) (arr : List Int) (end_ : Int) (i : Int)
    (local_sum : Int) : Option Int :=
  if i < end_ then
    match arrGet arr i with
    | none => none
    | some v => sumLoop add arr end_ (i + 1) (add local_sum v)
  else some local_sum
termination_by (end_ - i).toNat
decreasing_by omega

/-! ## The process group and the collectives -/

/-- The ranks `0, 1, ..., size - 1` of `MPI_COMM_WORLD`. -/
def ranks (size : Int) : List Int :=
  (List.range size.toNat).map Int.ofNat

/-- All results of the ranks, or `none` when some rank has none. -/
def gather {α : Type} : List (Option α) → Option (List α)
  | [] => some []
  | none :: _ => none
  | some x :: rest => (gather rest).map (fun xs => x :: xs)

/-- The value `MPI_Reduce(..., MPI_SUM, 0, ...)` stores at rank 0: the
contributions of the ranks combined in rank order (`AddSem.reduce_perm`: any other order
gives the same value). -/
def MPI_Reduce_SUM (add : Int → Int → Int) : List Int → Int
  | [] => 0
  | v :: rest => rest.foldl add v

/-- The receive buffer of rank `r` after
`MPI_Scatter(sendbuf, count, MPI_INT, recvbuf, count, MPI_INT, 0, ...)`:
`recvbuf[j] = sendbuf[r * count + j]` for `j < count`. -/
def scatterRecv (sendbuf : List Int) (count : Int) (r : Int) : Option (List Int) :=
  gather ((List.range count.toNat).map (fun j => arrGet sendbuf (r * count + Int.ofNat j)))

/-- The receive buffers of all ranks after `MPI_Scatter`, in rank order; a
negative `count` is erroneous. -/
def MPI_Scatter (sendbuf : List Int) (count : Int) (size : Int) : Option (List (List Int)) :=
  if count < 0 then none
  else gather ((ranks size).map (scatterRecv sendbuf count))

end SumArrayMpi

/-! ## Variant (a): `sum_array_mpi(defined).c` -/

namespace SumArrayMpiDefined

open SumArrayMpi

/-- Line 15: `int elements_per_process = N / size;` -/
def elements_per_process (N size : Int) : Option Int := cDiv N size

/-- Line 16: `int start = rank * elements_per_process;` -/
def start (N size rank : Int) : Option Int :=
  match elements_per_process N size with
  | none => none
  | some epp => some (rank * epp)

/-- The value of `end` when the loop is entered:
`start + elements_per_process`, overwritten by `N` when `rank == size - 1`. -/
def end_ (N size rank : Int) : Option Int :=
  match elements_per_process N size, start N size rank with
  | some epp, some s => some (if rank = size - 1 then N else s + epp)
  | _, _ => none

/-- The Partial Sum `local_sum` of rank `rank` (lines 15 to 27). -/
def local_sum (add : Int → Int → Int) (arr : List Int) (N size rank : Int) : Option Int :=
  match start N size rank, end_ N size rank with
  | some s, some e => sumLoop add arr e s 0
  | _, _ => none

/-- The Partial Sums of all ranks, in rank order. -/
def partial_sums (add : Int → Int → Int) (arr : List Int) (N size : Int) : Option (List Int) :=
  gather ((ranks size).map (local_sum add arr N size))

/-- The Total Sum `total_sum` received at rank 0 (line 32). -/
def total_sum (add : Int → Int → Int) (arr : List Int) (N size : Int) : Option Int :=
  (partial_sums add arr N size).map (MPI_Reduce_SUM add)

/-- Line 7: `int N = 8;` -/
def N : Int := 8

/-- Line 8: `int arr[] = {10, 20, 30, 40, 50, 60, 70, 80};` -/
def arr : List Int := [10, 20, 30, 40, 50, 60, 70, 80]

/-- The Total Sum printed by rank 0 of the program run on `size` processes. -/
def main (add : Int → Int → Int) (size : Int) : Option Int :=
  total_sum add arr N size

end SumArrayMpiDefined

/-! ## Variant (b): `sum_array_mpi.c` -/

namespace SumArrayMpi

/-- How a run, or a phase of it, ends. -/
inductive Outcome (α : Type) where
  /-- `MPI_Abort(MPI_COMM_WORLD, status)` was called. -/
  | aborted (status : Int)
  /-- The behaviour is undefined. -/
  | undefined
  /-- The phase completed with a value. -/
  | done (val : α)
  deriving DecidableEq

/-- The loop `for (int i = 0; i < N; i++) scanf("%d", &arr[i]);` entered with
index `i`, the integers `stdin` still to be read and the elements `arr` read
so far; `none` when the input ends early. -/
def readLoop (N : Int) (i : Int) (stdin : List Int) (arr : List Int) : Option (List Int) :=
  if i < N then
    match stdin with
    | [] => none
    | x :: rest => readLoop N (i + 1) rest (arr ++ [x])
  else some arr
termination_by (N - i).toNat
decreasing_by omega

/-- The block `if (rank == 0) { ... }` of lines 15 to 31, run by rank 0 with `N`
the integer read by the first `scanf` and `stdin` the integers that follow it:
the Global Array, or the abort of the group. -/
def coordinator (size N : Int) (stdin : List Int) : Outcome (List Int) :=
  match cMod N size with
  | none => .undefined
  | some r =>
    if r ≠ 0 then .aborted 1
    else
      match readLoop N 0 stdin [] with
      | none => .undefined
      | some arr => .done arr

/-- The Local Chunks `sub_arr` of all ranks after the scatter (lines 34 to 42). -/
def local_chunks (size N : Int) (stdin : List Int) : Outcome (List (List Int)) :=
  match coordinator size N stdin with
  | .aborted st => .aborted st
  | .undefined => .undefined
  | .done arr =>
    match cDiv N size with
    | none => .undefined
    | some epp =>
      match MPI_Scatter arr epp size with
      | none => .undefined
      | some chunks => .done chunks

/-- The Partial Sum `local_sum` of a rank whose Local Chunk is `sub_arr`
(lines 45 to 47). -/
def local_sum (add : Int → Int → Int) (sub_arr : List Int) (elements_per_process : Int) :
    Option Int :=
  sumLoop add sub_arr elements_per_process 0 0

/-- The Partial Sums of all ranks, in rank order. -/
def partial_sums (add : Int → Int → Int) (size N : Int) (stdin : List Int) :
    Outcome (List Int) :=
  match local_chunks size N stdin with
  | .aborted st => .aborted st
  | .undefined => .undefined
  | .done chunks =>
    match cDiv N size with
    | none => .undefined
    | some epp =>
      match gather (chunks.map (fun sub_arr => local_sum add sub_arr epp)) with
      | none => .undefined
      | some sums => .done sums

/-- The run on `size` processes: the Total Sum `total_sum` printed by rank 0, or
the abort of the group. -/
def main (add : Int → Int → Int) (size N : Int) (stdin : List Int) : Outcome Int :=
  match partial_sums add size N stdin with
  | .aborted st => .aborted st
  | .undefined => .undefined
  | .done sums => .done (MPI_Reduce_SUM add sums)

/-! ## Semantics of addition -/

/-- A semantics `add` of `+` that is exact addition followed by a normalisation `h` of the
result, where `h` does not depend on whether its operands were normalised before. Exact
addition has `h = id`, wrapping addition has `h = wrap32`. -/
structure AddSem (add : Int → Int → Int) (h : Int → Int) : Prop where
  add_eq : ∀ a b, add a b = h (a + b)
  h_left : ∀ a b, h (h a + b) = h (a + b)
  h_right : ∀ a b, h (a + h b) = h (a + b)
  h_zero : h 0 = 0

end SumArrayMpi

/-! # Proofs -/

namespace SumArrayMpi

/-! ## The summation loop computes a fold over a slice -/

theorem arrGet_natCast (arr : List Int) (i : Nat) (hi : i < arr.length) :
    arrGet arr (i : Int) = some arr[i] := by
  simp [arrGet, List.getElem?_eq_getElem hi]

theorem sumLoop_slice (add : Int → Int → Int) (arr : List Int) (e : Nat)
    (he : e ≤ arr.length) :
    ∀ (k i : Nat) (acc : Int), e - i = k →
      sumLoop add arr (e : Int) (i : Int) acc
        = some (((arr.drop i).take k).foldl add acc)
  | 0, i, acc, h => by
      rw [sumLoop]
      have : ¬ ((i : Int) < (e : Int)) := by omega
      simp [this]
  | k + 1, i, acc, h => by
      rw [sumLoop]
      have hi : i < e := by omega
      have hi2 : (i : Int) < (e : Int) := by omega
      have hlen : i < arr.length := by omega
      have ih := sumLoop_slice add arr e he k (i + 1) (add acc arr[i]) (by omega)
      rw [if_pos hi2, arrGet_natCast arr i hlen]
      simp only []
      have hc : ((i : Int) + 1) = ((i + 1 : Nat) : Int) := by push_cast; rfl
      rw [hc, ih, List.drop_eq_getElem_cons hlen, List.take_succ_cons, List.foldl_cons]

theorem addSem_exact : AddSem exactAdd id :=
  ⟨fun _ _ => rfl, fun _ _ => rfl, fun _ _ => rfl, rfl⟩

theorem wrap32_emod (x : Int) : wrap32 x % 2 ^ 32 = x % 2 ^ 32 := by
  unfold wrap32; omega

theorem wrap32_congr {x y : Int} (hxy : x % 2 ^ 32 = y % 2 ^ 32) : wrap32 x = wrap32 y := by
  unfold wrap32; omega

theorem addSem_wrap : AddSem wrapAdd32 wrap32 := by
  refine ⟨fun _ _ => rfl, fun a b => wrap32_congr ?_, fun a b => wrap32_congr ?_, by decide⟩
  · have := wrap32_emod a; omega
  · have := wrap32_emod b; omega

theorem AddSem.foldl_eq {add h} (S : AddSem add h) (l : List Int) :
    ∀ a : Int, l.foldl add (h a) = h (a + l.sum) := by
  induction l with
  | nil => intro a; simp
  | cons x xs ih =>
    intro a
    rw [List.foldl_cons, S.add_eq, S.h_left, ih, List.sum_cons, add_assoc]

theorem AddSem.foldl_zero {add h} (S : AddSem add h) (l : List Int) :
    l.foldl add 0 = h l.sum := by
  have := S.foldl_eq l 0
  rw [S.h_zero] at this
  simpa using this

theorem AddSem.foldl_map {add h} (S : AddSem add h) (l : List Int) :
    ∀ a : Int, (l.map h).foldl add (h a) = h (a + l.sum) := by
  induction l with
  | nil => intro a; simp
  | cons x xs ih =>
    intro a
    rw [List.map_cons, List.foldl_cons, S.add_eq, S.h_left, S.h_right, ih, List.sum_cons,
      add_assoc]

theorem AddSem.reduce_map {add h} (S : AddSem add h) (l : List Int) :
    MPI_Reduce_SUM add (l.map h) = h l.sum := by
  cases l with
  | nil => simp [MPI_Reduce_SUM, S.h_zero]
  | cons x xs => simp [MPI_Reduce_SUM, S.foldl_map]

/-- The order in which the contributions are combined does not matter: the SUM-reduce of
normalised contributions is the same for every permutation of them. -/
theorem AddSem.reduce_perm {add h} (S : AddSem add h) (l l' : List Int) (hp : l.Perm l')
    (hn : ∀ x ∈ l, h x = x) : MPI_Reduce_SUM add l = MPI_Reduce_SUM add l' := by
  have h1 : l.map h = l := by
    conv_rhs => rw [← List.map_id l]
    exact List.map_congr_left hn
  have h2 : l'.map h = l' := by
    conv_rhs => rw [← List.map_id l']
    exact List.map_congr_left (fun x hx => hn x (hp.mem_iff.mpr hx))
  rw [← h1, ← h2, S.reduce_map, S.reduce_map, hp.sum_eq]

theorem gather_map_some {α β : Type} (f : α → Option β) (g : α → β) :
    ∀ l : List α, (∀ x ∈ l, f x = some (g x)) → gather (l.map f) = some (l.map g)
  | [], _ => rfl
  | x :: xs, hx => by
      have h1 := hx x (List.mem_cons_self x xs)
      have h2 := gather_map_some f g xs (fun y hy => hx y (List.mem_cons_of_mem x hy))
      simp [gather, h1, h2]

theorem flatten_slices (arr : List Int) (q : Nat) :
    ∀ k : Nat, ((List.range k).map (fun r => (arr.drop (r * q)).take q)).flatten
      = arr.take (k * q)
  | 0 => by simp
  | k + 1 => by
      rw [List.range_succ, List.map_append, List.flatten_append, flatten_slices arr q k]
      simp [Nat.succ_mul, List.take_add]

/-! ## Variant (a): closed forms -/

theorem tdiv_natCast (n p : Nat) : (n : Int).tdiv (p : Int) = ((n / p : Nat) : Int) := by
  rw [Int.tdiv_eq_ediv (by omega) (by omega)]
  norm_cast

theorem ranks_natCast (p : Nat) : ranks (p : Int) = (List.range p).map Int.ofNat := by
  simp [ranks]

theorem epp_natCast (n p : Nat) (hp : 1 ≤ p) :
    SumArrayMpiDefined.elements_per_process n p = some ((n / p : Nat) : Int) := by
  have : (p : Int) ≠ 0 := by omega
  simp [SumArrayMpiDefined.elements_per_process, cDiv, this, tdiv_natCast]

theorem start_natCast (n p r : Nat) (hp : 1 ≤ p) :
    SumArrayMpiDefined.start n p r = some ((r * (n / p) : Nat) : Int) := by
  simp [SumArrayMpiDefined.start, epp_natCast n p hp]

theorem end_natCast (n p r : Nat) (hp : 1 ≤ p) :
    SumArrayMpiDefined.end_ n p r
      = some (((if r + 1 = p then n else r * (n / p) + n / p : Nat)) : Int) := by
  have hc : ((r : Int) = (p : Int) - 1) ↔ r + 1 = p := by omega
  simp only [SumArrayMpiDefined.end_, epp_natCast n p hp, start_natCast n p r hp, hc]
  split <;> simp

theorem end_le (n p r : Nat) (hr : r < p) :
    (if r + 1 = p then n else r * (n / p) + n / p) ≤ n := by
  have h1 : (r + 1) * (n / p) ≤ p * (n / p) := Nat.mul_le_mul_right _ (by omega)
  have h2 : p * (n / p) ≤ n := Nat.mul_div_le n p
  rw [Nat.succ_mul] at h1
  generalize n / p = q at h1 h2 ⊢
  generalize p * q = m at h1 h2
  split <;> omega

theorem local_sumA_fold (add : Int → Int → Int) (arr : List Int) (n p r : Nat)
    (hlen : arr.length = n) (hr : r < p) :
    SumArrayMpiDefined.local_sum add arr n p r
      = some (((arr.drop (r * (n / p))).take
          ((if r + 1 = p then n else r * (n / p) + n / p) - r * (n / p))).foldl add 0) := by
  have hp : 1 ≤ p := by omega
  simp only [SumArrayMpiDefined.local_sum, start_natCast n p r hp, end_natCast n p r hp]
  rw [sumLoop_slice add arr _ (by rw [hlen]; exact end_le n p r hr) _ _ 0 rfl]

theorem local_sumA_eq {add h} (S : AddSem add h) (arr : List Int) (n p r : Nat)
    (hlen : arr.length = n) (hr : r < p) :
    SumArrayMpiDefined.local_sum add arr n p r
      = some (h (((arr.drop (r * (n / p))).take
          ((if r + 1 = p then n else r * (n / p) + n / p) - r * (n / p))).sum)) := by
  rw [local_sumA_fold add arr n p r hlen hr, S.foldl_zero]

theorem flatten_slicesA (arr : List Int) (n p : Nat) (hlen : arr.length = n) (hp : 1 ≤ p) :
    ((List.range p).map (fun r => (arr.drop (r * (n / p))).take
        ((if r + 1 = p then n else r * (n / p) + n / p) - r * (n / p)))).flatten = arr := by
  obtain ⟨k, rfl⟩ : ∃ k, p = k + 1 := ⟨p - 1, by omega⟩
  rw [List.range_succ, List.map_append, List.flatten_append]
  have h1 : (List.range k).map (fun r => (arr.drop (r * (n / (k + 1)))).take
        ((if r + 1 = k + 1 then n else r * (n / (k + 1)) + n / (k + 1)) - r * (n / (k + 1))))
      = (List.range k).map (fun r => (arr.drop (r * (n / (k + 1)))).take (n / (k + 1))) := by
    apply List.map_congr_left
    intro r hr
    have hr2 : r < k := List.mem_range.mp hr
    have hne : ¬ (r + 1 = k + 1) := by omega
    simp [hne]
  rw [h1, flatten_slices]
  simp only [List.map_cons, List.map_nil, List.flatten_cons, List.flatten_nil, List.append_nil,
    if_true]
  have h2 : (arr.drop (k * (n / (k + 1)))).take (n - k * (n / (k + 1)))
      = arr.drop (k * (n / (k + 1))) := List.take_of_length_le (by simp [hlen])
  rw [h2, List.take_append_drop]

theorem partial_sumsA_eq {add h} (S : AddSem add h) (arr : List Int) (n p : Nat)
    (hlen : arr.length = n) :
    SumArrayMpiDefined.partial_sums add arr n p
      = some ((List.range p).map (fun r => h (((arr.drop (r * (n / p))).take
          ((if r + 1 = p then n else r * (n / p) + n / p) - r * (n / p))).sum))) := by
  rw [SumArrayMpiDefined.partial_sums, ranks_natCast, List.map_map]
  apply gather_map_some
  intro r hr
  exact local_sumA_eq S arr n p r hlen (List.mem_range.mp hr)

theorem total_sumA_eq {add h} (S : AddSem add h) (arr : List Int) (n p : Nat)
    (hlen : arr.length = n) (hp : 1 ≤ p) :
    SumArrayMpiDefined.total_sum add arr n p = some (h arr.sum) := by
  rw [SumArrayMpiDefined.total_sum, partial_sumsA_eq S arr n p hlen]
  have hm : (List.range p).map (fun r => h (((arr.drop (r * (n / p))).take
          ((if r + 1 = p then n else r * (n / p) + n / p) - r * (n / p))).sum))
      = (((List.range p).map (fun r => (arr.drop (r * (n / p))).take
          ((if r + 1 = p then n else r * (n / p) + n / p) - r * (n / p)))).map List.sum).map h := by
    simp [List.map_map, Function.comp_def]
  rw [hm, Option.map_some', S.reduce_map, ← List.sum_flatten, flatten_slicesA arr n p hlen hp]

/-! ## Variant (a): total sum -/

/-- C1: static partitioning with exact integer arithmetic. For every `N ≥ 0`, group size
`size ≥ 1` and array of length `N`, every rank has a Partial Sum, there are `size` of
them, they add up to the sum of the whole array, and the SUM-reduce received at rank 0
is the sum of the whole array. -/
theorem static_total_eq_sum (arr : List Int) (N size : Int) (hN : 0 ≤ N) (hP : 1 ≤ size)
    (hlen : (arr.length : Int) = N) :
    SumArrayMpiDefined.total_sum exactAdd arr N size = some arr.sum ∧
    ∃ sums, SumArrayMpiDefined.partial_sums exactAdd arr N size = some sums ∧
      (sums.length : Int) = size ∧ sums.sum = arr.sum ∧
      MPI_Reduce_SUM exactAdd sums = arr.sum := by
  obtain ⟨n, rfl⟩ := Int.eq_ofNat_of_zero_le hN
  obtain ⟨p, rfl⟩ := Int.eq_ofNat_of_zero_le (by omega : (0 : Int) ≤ size)
  have hlen2 : arr.length = n := by exact_mod_cast hlen
  have hp : 1 ≤ p := by omega
  have ht := total_sumA_eq addSem_exact arr n p hlen2 hp
  have hs := partial_sumsA_eq addSem_exact arr n p hlen2
  refine ⟨ht, _, hs, by simp, ?_, ?_⟩
  · have hf := flatten_slicesA arr n p hlen2 hp
    have := congrArg List.sum hf
    rw [List.sum_flatten, List.map_map] at this
    simpa [Function.comp_def] using this
  · rw [SumArrayMpiDefined.total_sum, hs] at ht
    simpa using ht

/-- C1, witness: the program's own data `N = 8`, `arr = [10, ..., 80]` on 4 processes gives
the Partial Sums `[30, 70, 110, 150]` and the Total Sum 360. -/
theorem static_total_eq_sum_witness :
    (0 : Int) ≤ SumArrayMpiDefined.N ∧ (1 : Int) ≤ 4 ∧
    (SumArrayMpiDefined.arr.length : Int) = SumArrayMpiDefined.N ∧
    SumArrayMpiDefined.partial_sums exactAdd SumArrayMpiDefined.arr SumArrayMpiDefined.N 4
      = some [30, 70, 110, 150] ∧
    SumArrayMpiDefined.main exactAdd 4 = some 360 :=
  ⟨by decide, by decide, by decide,
   (partial_sumsA_eq addSem_exact SumArrayMpiDefined.arr 8 4 rfl).trans (by decide),
   (static_total_eq_sum SumArrayMpiDefined.arr SumArrayMpiDefined.N 4
      (by decide) (by decide) (by decide)).1⟩

theorem eppA_eq (N size : Int) (hN : 0 ≤ N) (hP : 1 ≤ size) :
    SumArrayMpiDefined.elements_per_process N size = some (N / size) := by
  have h0 : size ≠ 0 := by omega
  simp [SumArrayMpiDefined.elements_per_process, cDiv, h0,
    Int.tdiv_eq_ediv hN (by omega : (0 : Int) ≤ size)]

theorem startA_eq (N size rank : Int) (hN : 0 ≤ N) (hP : 1 ≤ size) :
    SumArrayMpiDefined.start N size rank = some (rank * (N / size)) := by
  simp [SumArrayMpiDefined.start, eppA_eq N size hN hP]

theorem endA_eq (N size rank : Int) (hN : 0 ≤ N) (hP : 1 ≤ size) :
    SumArrayMpiDefined.end_ N size rank
      = some (if rank = size - 1 then N else rank * (N / size) + N / size) := by
  simp [SumArrayMpiDefined.end_, eppA_eq N size hN hP, startA_eq N size rank hN hP]

/-- Facts of the integer division used by the static partition. -/
theorem div_facts (N size : Int) (hN : 0 ≤ N) (hP : 1 ≤ size) :
    0 ≤ N / size ∧ 0 ≤ N % size ∧ N % size < size ∧ size * (N / size) + N % size = N :=
  ⟨Int.ediv_nonneg hN (by omega), Int.emod_nonneg N (by omega),
   Int.emod_lt_of_pos N (by omega), Int.ediv_add_emod N size⟩

theorem mul_le_of_le (a b q : Int) (hq : 0 ≤ q) (hab : a ≤ b) : a * q ≤ b * q :=
  Int.mul_le_mul_of_nonneg_right hab hq

/-- C6: chunk sizes of the static partition. -/
theorem static_chunk_sizes (N size rank : Int) (hN : 0 ≤ N) (hP : 1 ≤ size)
    (hR0 : 0 ≤ rank) (hR : rank < size) :
    ∃ s e, SumArrayMpiDefined.start N size rank = some s ∧
      SumArrayMpiDefined.end_ N size rank = some e ∧
      (rank < size - 1 → e - s = N / size) ∧
      (rank = size - 1 → e - s = N - (size - 1) * (N / size) ∧
        e - s = N / size + N % size) := by
  refine ⟨_, _, startA_eq N size rank hN hP, endA_eq N size rank hN hP, ?_, ?_⟩
  · intro h
    have : ¬ (rank = size - 1) := by omega
    simp [this]
  · intro h
    obtain ⟨_, _, _, h4⟩ := div_facts N size hN hP
    subst h
    rw [if_pos rfl]
    refine ⟨rfl, ?_⟩
    have : (size - 1) * (N / size) = size * (N / size) - N / size := by ring
    omega

theorem endA_le (N size rank : Int) (hN : 0 ≤ N) (hP : 1 ≤ size) (hR : rank < size) :
    (if rank = size - 1 then N else rank * (N / size) + N / size) ≤ N := by
  obtain ⟨hq, hr0, _, hsum⟩ := div_facts N size hN hP
  split
  · exact le_rfl
  · have h1 := mul_le_of_le (rank + 1) size (N / size) hq (by omega)
    have h2 : (rank + 1) * (N / size) = rank * (N / size) + N / size := by ring
    have h3 : size * (N / size) ≤ N := by omega
    omega

theorem startA_le_end (N size rank : Int) (hN : 0 ≤ N) (hP : 1 ≤ size) :
    rank * (N / size) ≤ (if rank = size - 1 then N else rank * (N / size) + N / size) := by
  obtain ⟨hq, hr0, _, hsum⟩ := div_facts N size hN hP
  split
  · have h1 := mul_le_of_le rank size (N / size) hq (by omega)
    omega
  · omega

theorem startA_nonneg (N size rank : Int) (hN : 0 ≤ N) (hP : 1 ≤ size) (hR0 : 0 ≤ rank) :
    0 ≤ rank * (N / size) :=
  Int.mul_nonneg hR0 (div_facts N size hN hP).1

/-- C5: the index ranges of the static partition tile `[0, N)`. The range of rank 0
starts at 0, the range of each rank before the last ends where the next one starts, the
range of the last rank ends at `N`, the ranges of two different ranks share no index, and
an index is in `[0, N)` exactly when it is in the range of some rank. -/
theorem static_tiling (N size : Int) (hN : 0 ≤ N) (hP : 1 ≤ size) :
    SumArrayMpiDefined.start N size 0 = some 0 ∧
    (∀ R, 0 ≤ R → R < size - 1 → ∃ b, SumArrayMpiDefined.end_ N size R = some b ∧
      SumArrayMpiDefined.start N size (R + 1) = some b) ∧
    SumArrayMpiDefined.end_ N size (size - 1) = some N ∧
    (∀ R R' s e s' e' i, 0 ≤ R → R < size → 0 ≤ R' → R' < size →
      SumArrayMpiDefined.start N size R = some s → SumArrayMpiDefined.end_ N size R = some e →
      SumArrayMpiDefined.start N size R' = some s' →
      SumArrayMpiDefined.end_ N size R' = some e' →
      s ≤ i → i < e → s' ≤ i → i < e' → R = R') ∧
    (∀ i, (0 ≤ i ∧ i < N) ↔ ∃ R s e, 0 ≤ R ∧ R < size ∧
      SumArrayMpiDefined.start N size R = some s ∧ SumArrayMpiDefined.end_ N size R = some e ∧
      s ≤ i ∧ i < e) := by
  obtain ⟨hq, hr0, hrlt, hsum⟩ := div_facts N size hN hP
  have key : ∀ R R' s e s' i, 0 ≤ R → R < R' → R' < size →
      SumArrayMpiDefined.start N size R = some s → SumArrayMpiDefined.end_ N size R = some e →
      SumArrayMpiDefined.start N size R' = some s' →
      s ≤ i → i < e → s' ≤ i → False := by
    intro R R' s e s' i h0 hlt hlt' hs he hs' h1 h2 h3
    rw [startA_eq N size _ hN hP] at hs hs'
    rw [endA_eq N size _ hN hP, if_neg (by omega)] at he
    cases hs; cases he; cases hs'
    have h4 := mul_le_of_le (R + 1) R' (N / size) hq (by omega)
    have h5 : (R + 1) * (N / size) = R * (N / size) + N / size := by ring
    omega
  refine ⟨?_, ?_, ?_, ?_, ?_⟩
  · rw [startA_eq N size 0 hN hP]; simp
  · intro R h0 hlt
    refine ⟨R * (N / size) + N / size, ?_, ?_⟩
    · rw [endA_eq N size R hN hP, if_neg (by omega)]
    · rw [startA_eq N size (R + 1) hN hP]; congr 1; ring
  · rw [endA_eq N size _ hN hP, if_pos rfl]
  · intro R R' s e s' e' i h0 hlt h0' hlt' hs he hs' he' h1 h2 h3 h4
    rcases lt_trichotomy R R' with h | h | h
    · exact (key R R' s e s' i h0 h hlt' hs he hs' h1 h2 h3).elim
    · exact h
    · exact (key R' R s' e' s i h0' h hlt hs' he' hs h3 h4 h1).elim
  · intro i
    constructor
    · rintro ⟨hi0, hiN⟩
      by_cases hc : i < (size - 1) * (N / size)
      · have hqpos : 0 < N / size := by
          by_contra h
          have hz : N / size = 0 := by omega
          rw [hz] at hc
          simp at hc
          omega
        have hd := Int.ediv_add_emod i (N / size)
        have hm0 := Int.emod_nonneg i (by omega : N / size ≠ 0)
        have hm1 := Int.emod_lt_of_pos i hqpos
        have hk0 : 0 ≤ i / (N / size) := Int.ediv_nonneg hi0 hq
        have hcomm : N / size * (i / (N / size)) = i / (N / size) * (N / size) := by ring
        have hk : i / (N / size) < size - 1 := by
          by_contra hge
          have := mul_le_of_le (size - 1) (i / (N / size)) (N / size) hq (by omega)
          omega
        refine ⟨i / (N / size), _, _, hk0, by omega, startA_eq N size _ hN hP,
          endA_eq N size _ hN hP, by omega, ?_⟩
        rw [if_neg (by omega)]; omega
      · refine ⟨size - 1, _, _, by omega, by omega, startA_eq N size _ hN hP,
          endA_eq N size _ hN hP, by omega, ?_⟩
        rw [if_pos rfl]; exact hiN
    · rintro ⟨R, s, e, h0, hlt, hs, he, h1, h2⟩
      rw [startA_eq N size _ hN hP] at hs
      rw [endA_eq N size _ hN hP] at he
      cases hs; cases he
      have h3 := startA_nonneg N size R hN hP h0
      have h4 := endA_le N size R hN hP hlt
      omega

theorem arrGet_isSome (arr : List Int) (i : Int) (h0 : 0 ≤ i) (h1 : i < (arr.length : Int)) :
    (arrGet arr i).isSome = true := by
  obtain ⟨k, rfl⟩ := Int.eq_ofNat_of_zero_le h0
  have hk : k < arr.length := by omega
  simp [arrGet_natCast arr k hk]

/-- C7: the static partition never errors. For a rank of the group the divisor `size` is
not zero and the division is defined, the bounds satisfy `0 ≤ start ≤ end ≤ N`, every index
the loop reads is inside the array, and the loop ends with a Partial Sum. -/
theorem static_never_errors (add : Int → Int → Int) (arr : List Int) (N size rank : Int)
    (hN : 0 ≤ N) (hP : 1 ≤ size) (hlen : (arr.length : Int) = N)
    (hR0 : 0 ≤ rank) (hR : rank < size) :
    size ≠ 0 ∧
    SumArrayMpiDefined.elements_per_process N size = some (N / size) ∧
    ∃ s e, SumArrayMpiDefined.start N size rank = some s ∧
      SumArrayMpiDefined.end_ N size rank = some e ∧
      0 ≤ s ∧ s ≤ e ∧ e ≤ N ∧
      (∀ i, s ≤ i → i < e → 0 ≤ i ∧ i < N ∧ (arrGet arr i).isSome = true) ∧
      ∃ v, SumArrayMpiDefined.local_sum add arr N size rank = some v := by
  have h1 := startA_nonneg N size rank hN hP hR0
  have h2 := startA_le_end N size rank hN hP
  have h3 := endA_le N size rank hN hP hR
  refine ⟨by omega, eppA_eq N size hN hP, _, _, startA_eq N size rank hN hP,
    endA_eq N size rank hN hP, h1, h2, h3, ?_, ?_⟩
  · intro i hi1 hi2
    exact ⟨by omega, by omega, arrGet_isSome arr i (by omega) (by omega)⟩
  · obtain ⟨n, rfl⟩ := Int.eq_ofNat_of_zero_le hN
    obtain ⟨p, rfl⟩ := Int.eq_ofNat_of_zero_le (by omega : (0 : Int) ≤ size)
    obtain ⟨r, rfl⟩ := Int.eq_ofNat_of_zero_le hR0
    exact ⟨_, local_sumA_fold add arr n p r (by exact_mod_cast hlen) (by omega)⟩

/-- C10: the degenerate split, for every arithmetic of `+` (`h = id` for exact addition,
`h = wrap32` for the wrapping 32-bit addition). With more ranks than elements the chunk
size is 0, every rank before the last has `start = end = 0` and Partial Sum 0, and the last
rank has the range `[0, N)` and its Partial Sum is the sum of the whole array in that
arithmetic, which is also the Total Sum of the run; with at least as many elements as
ranks every rank has a non-empty range. -/
theorem static_degenerate_split {add : Int → Int → Int} {h : Int → Int} (S : AddSem add h)
    (arr : List Int) (N size : Int) (hN : 0 ≤ N) (hP : 1 ≤ size)
    (hlen : (arr.length : Int) = N) :
    (N < size →
      SumArrayMpiDefined.elements_per_process N size = some 0 ∧
      (∀ R, 0 ≤ R → R < size - 1 →
        SumArrayMpiDefined.start N size R = some 0 ∧
        SumArrayMpiDefined.end_ N size R = some 0 ∧
        SumArrayMpiDefined.local_sum add arr N size R = some 0) ∧
      SumArrayMpiDefined.start N size (size - 1) = some 0 ∧
      SumArrayMpiDefined.end_ N size (size - 1) = some N ∧
      SumArrayMpiDefined.local_sum add arr N size (size - 1) = some (h arr.sum) ∧
      SumArrayMpiDefined.local_sum add arr N size (size - 1)
        = SumArrayMpiDefined.total_sum add arr N size) ∧
    (size ≤ N → ∀ R, 0 ≤ R → R < size →
      ∃ s e, SumArrayMpiDefined.start N size R = some s ∧
        SumArrayMpiDefined.end_ N size R = some e ∧ s < e) := by
  obtain ⟨hq, hr0, hrlt, hsum⟩ := div_facts N size hN hP
  constructor
  · intro hlt
    have hz : N / size = 0 := Int.ediv_eq_zero_of_lt hN hlt
    have hs : ∀ R, SumArrayMpiDefined.start N size R = some 0 := by
      intro R; rw [startA_eq N size R hN hP, hz]; simp
    have he : ∀ R, R < size - 1 → SumArrayMpiDefined.end_ N size R = some 0 := by
      intro R hR; rw [endA_eq N size R hN hP, if_neg (by omega), hz]; simp
    have hel : SumArrayMpiDefined.end_ N size (size - 1) = some N := by
      rw [endA_eq N size _ hN hP, if_pos rfl]
    have hlast : SumArrayMpiDefined.local_sum add arr N size (size - 1)
        = some (h arr.sum) := by
      simp only [SumArrayMpiDefined.local_sum, hs _, hel]
      obtain ⟨n, rfl⟩ := Int.eq_ofNat_of_zero_le hN
      have hl : arr.length = n := by exact_mod_cast hlen
      have := sumLoop_slice add arr n (by omega) n 0 0 (by omega)
      rw [Nat.cast_zero] at this
      rw [this, S.foldl_zero]
      simp [← hl]
    have htot : SumArrayMpiDefined.total_sum add arr N size = some (h arr.sum) := by
      obtain ⟨n, rfl⟩ := Int.eq_ofNat_of_zero_le hN
      obtain ⟨p, rfl⟩ := Int.eq_ofNat_of_zero_le (by omega : (0 : Int) ≤ size)
      exact total_sumA_eq S arr n p (by exact_mod_cast hlen) (by omega)
    refine ⟨by rw [eppA_eq N size hN hP, hz], ?_, hs _, hel, hlast, by rw [hlast, htot]⟩
    intro R hR0 hR
    refine ⟨hs R, he R hR, ?_⟩
    simp only [SumArrayMpiDefined.local_sum, hs R, he R hR]
    rw [sumLoop]; simp
  · intro hle R hR0 hR
    refine ⟨_, _, startA_eq N size R hN hP, endA_eq N size R hN hP, ?_⟩
    have hqpos : 0 < N / size := by
      by_contra h
      have hz : N / size = 0 := by omega
      rw [hz] at hsum
      omega
    split
    · have := mul_le_of_le R (size - 1) (N / size) hq (by omega)
      have h2 : (size - 1) * (N / size) = size * (N / size) - N / size := by ring
      omega
    · omega

/-! ## Variant (b): closed forms -/

theorem readLoop_take (N : Int) :
    ∀ (k : Nat) (i : Int) (stdin acc : List Int), (N - i).toNat = k → k ≤ stdin.length →
      readLoop N i stdin acc = some (acc ++ stdin.take k)
  | 0, i, stdin, acc, h, _ => by
      rw [readLoop.eq_def]
      have : ¬ (i < N) := by omega
      simp [this]
  | k + 1, i, stdin, acc, h, hl => by
      rw [readLoop.eq_def]
      have hi : i < N := by omega
      cases stdin with
      | nil => simp at hl
      | cons x rest =>
        simp only [if_pos hi]
        rw [readLoop_take N k (i + 1) rest (acc ++ [x]) (by omega)
          (by simpa using hl)]
        simp

theorem readLoop_zero (N : Int) (stdin : List Int) (hl : N.toNat ≤ stdin.length) :
    readLoop N 0 stdin [] = some (stdin.take N.toNat) := by
  rw [readLoop_take N N.toNat 0 stdin [] (by simp) hl]
  simp

theorem cMod_eq (N size : Int) (hP : 1 ≤ size) : cMod N size = some (N.tmod size) := by
  have : size ≠ 0 := by omega
  simp [cMod, this]

theorem tmod_eq_zero_iff (N size : Int) : N.tmod size = 0 ↔ N % size = 0 :=
  ⟨fun h => Int.emod_eq_zero_of_dvd (Int.dvd_of_tmod_eq_zero h),
   fun h => Int.tmod_eq_zero_of_dvd (Int.dvd_of_emod_eq_zero h)⟩

theorem coordinator_abort (size N : Int) (stdin : List Int) (hP : 1 ≤ size)
    (h : N % size ≠ 0) : coordinator size N stdin = .aborted 1 := by
  have : N.tmod size ≠ 0 := fun h2 => h ((tmod_eq_zero_iff N size).mp h2)
  simp [coordinator, cMod_eq N size hP, this]

theorem coordinator_pass (size N : Int) (stdin : List Int) (hP : 1 ≤ size)
    (h : N % size = 0) :
    coordinator size N stdin
      = match readLoop N 0 stdin [] with
        | none => .undefined
        | some arr => .done arr := by
  have : N.tmod size = 0 := (tmod_eq_zero_iff N size).mpr h
  simp [coordinator, cMod_eq N size hP, this]

theorem coordinator_done (size N : Int) (stdin : List Int) (hP : 1 ≤ size)
    (h : N % size = 0) (hl : N.toNat ≤ stdin.length) :
    coordinator size N stdin = .done (stdin.take N.toNat) := by
  rw [coordinator_pass size N stdin hP h, readLoop_zero N stdin hl]

theorem scatterRecv_eq (arr : List Int) (q r : Nat) (hl : r * q + q ≤ arr.length) :
    scatterRecv arr (q : Int) (r : Int) = some ((arr.drop (r * q)).take q) := by
  have h1 : scatterRecv arr (q : Int) (r : Int)
      = some ((List.range q).map (fun j => arr.getD (r * q + j) 0)) := by
    rw [scatterRecv, Int.toNat_ofNat]
    apply gather_map_some
    intro j hj
    have hj2 : j < q := List.mem_range.mp hj
    have hc : (r : Int) * (q : Int) + Int.ofNat j = ((r * q + j : Nat) : Int) := by
      push_cast; rfl
    have hlt : r * q + j < arr.length := by omega
    rw [hc, arrGet_natCast arr _ hlt]
    simp [List.getD, List.getElem?_eq_getElem hlt]
  rw [h1]
  congr 1
  apply List.ext_getElem?
  intro j
  by_cases hj : j < q
  · have hlt : r * q + j < arr.length := by omega
    simp [List.getElem?_take, List.getElem?_drop, hj, List.getElem?_eq_getElem hlt]
  · simp [List.getElem?_take, hj]
    omega

theorem MPI_Scatter_eq (arr : List Int) (q p : Nat) (hl : p * q ≤ arr.length) :
    MPI_Scatter arr (q : Int) (p : Int)
      = some ((List.range p).map (fun r => (arr.drop (r * q)).take q)) := by
  have hq : ¬ ((q : Int) < 0) := by omega
  rw [MPI_Scatter, if_neg hq, ranks_natCast, List.map_map]
  apply gather_map_some
  intro r hr
  have hr2 : r < p := List.mem_range.mp hr
  have h1 : (r + 1) * q ≤ p * q := Nat.mul_le_mul_right _ (by omega)
  rw [Nat.succ_mul] at h1
  exact scatterRecv_eq arr q r (by omega)

theorem local_sumB_fold (add : Int → Int → Int) (sub_arr : List Int) (q : Nat)
    (hl : sub_arr.length = q) :
    local_sum add sub_arr (q : Int) = some (sub_arr.foldl add 0) := by
  have := sumLoop_slice add sub_arr q (by omega) q 0 0 (by omega)
  rw [Nat.cast_zero] at this
  rw [local_sum, this]
  simp [← hl]

theorem cDiv_natCast (n p : Nat) (hp : 1 ≤ p) :
    cDiv (n : Int) (p : Int) = some ((n / p : Nat) : Int) := by
  have : (p : Int) ≠ 0 := by omega
  simp [cDiv, this, tdiv_natCast]

theorem slice_length (arr : List Int) (q p r : Nat) (hl : p * q ≤ arr.length) (hr : r < p) :
    ((arr.drop (r * q)).take q).length = q := by
  have h1 : (r + 1) * q ≤ p * q := Nat.mul_le_mul_right _ (by omega)
  rw [Nat.succ_mul] at h1
  simp
  omega

theorem local_chunksB_eq (arr : List Int) (n p : Nat) (hp : 1 ≤ p) (hdiv : n % p = 0)
    (hlen : arr.length = n) :
    local_chunks (p : Int) (n : Int) arr
      = .done ((List.range p).map (fun r => (arr.drop (r * (n / p))).take (n / p))) := by
  have hd : (n : Int) % (p : Int) = 0 := by exact_mod_cast hdiv
  have hpq : p * (n / p) = n := Nat.mul_div_cancel' (Nat.dvd_of_mod_eq_zero hdiv)
  have ht : arr.take (n : Int).toNat = arr := List.take_of_length_le (by simp [hlen])
  rw [local_chunks, coordinator_done p n arr (by omega) hd (by simp [hlen]), ht]
  simp only [cDiv_natCast n p hp]
  rw [MPI_Scatter_eq arr (n / p) p (by omega)]

theorem partial_sumsB_fold (add : Int → Int → Int) (arr : List Int) (n p : Nat) (hp : 1 ≤ p)
    (hdiv : n % p = 0) (hlen : arr.length = n) :
    partial_sums add (p : Int) (n : Int) arr
      = .done (((List.range p).map (fun r => (arr.drop (r * (n / p))).take (n / p))).map
          (fun c => c.foldl add 0)) := by
  have hpq : p * (n / p) = n := Nat.mul_div_cancel' (Nat.dvd_of_mod_eq_zero hdiv)
  rw [partial_sums, local_chunksB_eq arr n p hp hdiv hlen]
  simp only [cDiv_natCast n p hp]
  rw [gather_map_some (fun sub_arr => local_sum add sub_arr ((n / p : Nat) : Int))
    (fun c => c.foldl add 0)]
  intro c hc
  obtain ⟨r, hr, rfl⟩ := List.mem_map.mp hc
  exact local_sumB_fold add _ _ (slice_length arr (n / p) p r (by omega) (List.mem_range.mp hr))

theorem partial_sumsB_eq {add h} (S : AddSem add h) (arr : List Int) (n p : Nat) (hp : 1 ≤ p)
    (hdiv : n % p = 0) (hlen : arr.length = n) :
    partial_sums add (p : Int) (n : Int) arr
      = .done ((((List.range p).map (fun r => (arr.drop (r * (n / p))).take (n / p))).map
          List.sum).map h) := by
  rw [partial_sumsB_fold add arr n p hp hdiv hlen]
  simp [List.map_map, Function.comp_def, S.foldl_zero]

theorem mainB_eq {add h} (S : AddSem add h) (arr : List Int) (n p : Nat) (hp : 1 ≤ p)
    (hdiv : n % p = 0) (hlen : arr.length = n) :
    main add (p : Int) (n : Int) arr = .done (h arr.sum) := by
  have hpq : p * (n / p) = n := Nat.mul_div_cancel' (Nat.dvd_of_mod_eq_zero hdiv)
  rw [main, partial_sumsB_eq S arr n p hp hdiv hlen]
  simp only []
  rw [S.reduce_map, ← List.sum_flatten, flatten_slices, hpq,
    List.take_of_length_le (by omega)]

/-- C2: dynamic distribution with exact integer arithmetic. For every group size
`size ≥ 1`, every `N ≥ 0` divisible by `size` and every array of length `N`, the run ends
with the Total Sum at rank 0 equal to the sum of the whole array; there are `size`
Partial Sums and they add up to the sum of the whole array. -/
theorem scatter_total_eq_sum (arr : List Int) (N size : Int) (hP : 1 ≤ size) (hN : 0 ≤ N)
    (hdiv : N % size = 0) (hlen : (arr.length : Int) = N) :
    main exactAdd size N arr = .done arr.sum ∧
    ∃ sums, partial_sums exactAdd size N arr = .done sums ∧
      (sums.length : Int) = size ∧ sums.sum = arr.sum ∧
      MPI_Reduce_SUM exactAdd sums = arr.sum := by
  obtain ⟨n, rfl⟩ := Int.eq_ofNat_of_zero_le hN
  obtain ⟨p, rfl⟩ := Int.eq_ofNat_of_zero_le (by omega : (0 : Int) ≤ size)
  have hlen2 : arr.length = n := by exact_mod_cast hlen
  have hp : 1 ≤ p := by omega
  have hd : n % p = 0 := by exact_mod_cast hdiv
  have hpq : p * (n / p) = n := Nat.mul_div_cancel' (Nat.dvd_of_mod_eq_zero hd)
  have hs := partial_sumsB_eq addSem_exact arr n p hp hd hlen2
  have hsum : ((List.range p).map (fun r => (arr.drop (r * (n / p))).take (n / p))).flatten
      = arr := by
    rw [flatten_slices, hpq, List.take_of_length_le (by omega)]
  refine ⟨mainB_eq addSem_exact arr n p hp hd hlen2, _, hs, by simp, ?_, ?_⟩
  · rw [List.map_id, ← List.sum_flatten, hsum]
  · rw [addSem_exact.reduce_map, ← List.sum_flatten, hsum]; rfl

/-- C2, witness: `N = 6`, `arr = [1, 2, 3, 4, 5, 6]` on 3 processes gives the Partial
Sums `[3, 7, 11]` and the Total Sum 21. -/
theorem scatter_total_eq_sum_witness :
    (1 : Int) ≤ 3 ∧ (0 : Int) ≤ 6 ∧ (6 : Int) % 3 = 0 ∧
    ((([1, 2, 3, 4, 5, 6] : List Int).length : Int) = 6) ∧
    partial_sums exactAdd 3 6 [1, 2, 3, 4, 5, 6] = .done [3, 7, 11] ∧
    main exactAdd 3 6 [1, 2, 3, 4, 5, 6] = .done 21 :=
  ⟨by decide, by decide, by decide, by decide,
   (partial_sumsB_eq addSem_exact [1, 2, 3, 4, 5, 6] 6 3 (by decide) (by decide) rfl).trans
      (by decide),
   (scatter_total_eq_sum [1, 2, 3, 4, 5, 6] 6 3 (by decide) (by decide) (by decide)
      (by decide)).1⟩

/-- C3: validation of the dynamic variant. For every integer `N` read and every group
size `size ≥ 1`, rank 0 aborts the group with status 1 exactly when `N mod size ≠ 0`; the
aborted run produces no Total Sum; when `N mod size = 0` neither rank 0 nor the run
aborts, and rank 0 goes on to distribution with the `N` integers it has read. -/
theorem validation_aborts_iff (size N : Int) (stdin : List Int) (hP : 1 ≤ size) :
    (coordinator size N stdin = .aborted 1 ↔ N % size ≠ 0) ∧
    (N % size ≠ 0 → ∀ add, main add size N stdin = .aborted 1 ∧
      ∀ t, main add size N stdin ≠ .done t) ∧
    (N % size = 0 →
      (∀ st, coordinator size N stdin ≠ .aborted st) ∧
      (∀ add st, main add size N stdin ≠ .aborted st) ∧
      (N.toNat ≤ stdin.length → coordinator size N stdin = .done (stdin.take N.toNat))) := by
  have hpass : N % size = 0 → ∀ st, coordinator size N stdin ≠ .aborted st := by
    intro h st
    rw [coordinator_pass size N stdin hP h]
    cases readLoop N 0 stdin [] <;> simp
  refine ⟨⟨?_, coordinator_abort size N stdin hP⟩, ?_, ?_⟩
  · intro h hz
    exact hpass hz 1 h
  · intro h add
    have hm : main add size N stdin = .aborted 1 := by
      simp [main, partial_sums, local_chunks, coordinator_abort size N stdin hP h]
    exact ⟨hm, fun t ht => by rw [hm] at ht; cases ht⟩
  · intro h
    refine ⟨hpass h, ?_, coordinator_done size N stdin hP h⟩
    intro add st
    have hc := hpass h
    unfold main partial_sums local_chunks
    cases hco : coordinator size N stdin with
    | aborted s => exact absurd hco (hc s)
    | undefined => simp
    | done arr =>
      simp only []
      cases cDiv N size with
      | none => simp
      | some epp =>
        simp only []
        cases MPI_Scatter arr epp size with
        | none => simp
        | some chunks =>
          simp only []
          cases gather (chunks.map (fun sub_arr => local_sum add sub_arr epp)) <;> simp

/-- C3, witness: `N = 9` on 4 processes aborts with status 1. -/
theorem validation_aborts_iff_witness :
    (1 : Int) ≤ 4 ∧ coordinator 4 9 [1, 2, 3, 4, 5, 6, 7, 8, 9] = .aborted 1 ∧
    main exactAdd 4 9 [1, 2, 3, 4, 5, 6, 7, 8, 9] = .aborted 1 :=
  ⟨by decide,
   (validation_aborts_iff 4 9 [1, 2, 3, 4, 5, 6, 7, 8, 9] (by decide)).1.2 (by decide),
   ((validation_aborts_iff 4 9 [1, 2, 3, 4, 5, 6, 7, 8, 9] (by decide)).2.1 (by decide)
      exactAdd).1⟩

/-- C4: the scatter round trip. For every group size `size ≥ 1` and every array of
length `N` with `N mod size = 0`, the scatter gives `size` Local Chunks, the chunk of rank
`R` is the `N / size` elements of the array from index `R * (N / size)` on, every chunk has
exactly `N / size` elements, and the chunks concatenated in rank order are the array. -/
theorem scatter_round_trip (arr : List Int) (N size : Int) (hP : 1 ≤ size) (hN : 0 ≤ N)
    (hdiv : N % size = 0) (hlen : (arr.length : Int) = N) :
    ∃ chunks, local_chunks size N arr = .done chunks ∧
      (chunks.length : Int) = size ∧
      (∀ R : Nat, (R : Int) < size →
        chunks[R]? = some ((arr.drop (R * (N / size).toNat)).take (N / size).toNat)) ∧
      (∀ c ∈ chunks, (c.length : Int) = N / size) ∧
      chunks.flatten = arr := by
  obtain ⟨n, rfl⟩ := Int.eq_ofNat_of_zero_le hN
  obtain ⟨p, rfl⟩ := Int.eq_ofNat_of_zero_le (by omega : (0 : Int) ≤ size)
  have hlen2 : arr.length = n := by exact_mod_cast hlen
  have hp : 1 ≤ p := by omega
  have hd : n % p = 0 := by exact_mod_cast hdiv
  have hpq : p * (n / p) = n := Nat.mul_div_cancel' (Nat.dvd_of_mod_eq_zero hd)
  have hq : ((n : Int) / (p : Int)).toNat = n / p := by
    rw [← Int.natCast_div, Int.toNat_ofNat]
  refine ⟨_, local_chunksB_eq arr n p hp hd hlen2, by simp, ?_, ?_, ?_⟩
  · intro R hR
    have hR2 : R < p := by omega
    rw [hq]
    simp [List.getElem?_map, List.getElem?_range hR2]
  · intro c hc
    obtain ⟨r, hr, rfl⟩ := List.mem_map.mp hc
    rw [slice_length arr (n / p) p r (by omega) (List.mem_range.mp hr)]
    norm_cast
  · rw [flatten_slices, hpq, List.take_of_length_le (by omega)]

theorem wrap32_range (x : Int) :
    -2 ^ 31 ≤ wrap32 x ∧ wrap32 x < 2 ^ 31 ∧ (wrap32 x - x) % 2 ^ 32 = 0 := by
  unfold wrap32
  omega

/-- C8: silent wraparound. With 32-bit wrapping addition in the summation loops and in
the SUM-reduce, for every array and group size `size ≥ 1` the static variant, and for
`N mod size = 0` the dynamic variant, end with the Total Sum equal to the sum of the
whole array reduced modulo `2^32` into the signed 32-bit range; so the run never fails
and the result is the same for every group size. -/
theorem wraparound_total (arr : List Int) (N size : Int) (hN : 0 ≤ N) (hP : 1 ≤ size)
    (hlen : (arr.length : Int) = N) :
    (-2 ^ 31 ≤ wrap32 arr.sum ∧ wrap32 arr.sum < 2 ^ 31 ∧
      (wrap32 arr.sum - arr.sum) % 2 ^ 32 = 0) ∧
    SumArrayMpiDefined.total_sum wrapAdd32 arr N size = some (wrap32 arr.sum) ∧
    (N % size = 0 → main wrapAdd32 size N arr = .done (wrap32 arr.sum)) ∧
    (∀ size', 1 ≤ size' →
      SumArrayMpiDefined.total_sum wrapAdd32 arr N size'
        = SumArrayMpiDefined.total_sum wrapAdd32 arr N size) ∧
    (∀ size', 1 ≤ size' → N % size' = 0 → N % size = 0 →
      main wrapAdd32 size' N arr = main wrapAdd32 size N arr) := by
  obtain ⟨n, rfl⟩ := Int.eq_ofNat_of_zero_le hN
  have hlen2 : arr.length = n := by exact_mod_cast hlen
  have hA : ∀ s : Int, 1 ≤ s →
      SumArrayMpiDefined.total_sum wrapAdd32 arr n s = some (wrap32 arr.sum) := by
    intro s hs
    obtain ⟨p, rfl⟩ := Int.eq_ofNat_of_zero_le (by omega : (0 : Int) ≤ s)
    exact total_sumA_eq addSem_wrap arr n p hlen2 (by omega)
  have hB : ∀ s : Int, 1 ≤ s → (n : Int) % s = 0 →
      main wrapAdd32 s n arr = .done (wrap32 arr.sum) := by
    intro s hs hd
    obtain ⟨p, rfl⟩ := Int.eq_ofNat_of_zero_le (by omega : (0 : Int) ≤ s)
    exact mainB_eq addSem_wrap arr n p (by omega) (by exact_mod_cast hd) hlen2
  refine ⟨wrap32_range arr.sum, hA size hP, hB size hP, ?_, ?_⟩
  · intro s hs
    rw [hA s hs, hA size hP]
  · intro s hs hd hd2
    rw [hB s hs hd, hB size hP hd2]

/-- C8, witness: `[2147483647, 1]` sums to `-2147483648` on 1 and on 2 processes. -/
theorem wraparound_total_witness :
    (0 : Int) ≤ 2 ∧ (1 : Int) ≤ 2 ∧ ((([2147483647, 1] : List Int).length : Int) = 2) ∧
    SumArrayMpiDefined.total_sum wrapAdd32 [2147483647, 1] 2 2 = some (-2147483648) ∧
    main wrapAdd32 2 2 [2147483647, 1] = .done (-2147483648) ∧
    main wrapAdd32 1 2 [2147483647, 1] = main wrapAdd32 2 2 [2147483647, 1] :=
  ⟨by decide, by decide, by decide,
   (wraparound_total [2147483647, 1] 2 2 (by decide) (by decide) (by decide)).2.1,
   (wraparound_total [2147483647, 1] 2 2 (by decide) (by decide) (by decide)).2.2.1
      (by decide),
   (wraparound_total [2147483647, 1] 2 2 (by decide) (by decide) (by decide)).2.2.2.2 1
      (by decide) (by decide) (by decide)⟩

theorem foldl_replicate_zero (add : Int → Int → Int) (hadd : add 0 0 = 0) :
    ∀ k : Nat, (List.replicate k (0 : Int)).foldl add 0 = 0
  | 0 => rfl
  | k + 1 => by
      rw [List.replicate_succ, List.foldl_cons, hadd]
      exact foldl_replicate_zero add hadd k

theorem reduce_replicate_zero (add : Int → Int → Int) (hadd : add 0 0 = 0) (k : Nat) :
    MPI_Reduce_SUM add (List.replicate k 0) = 0 := by
  cases k with
  | zero => rfl
  | succ k => exact foldl_replicate_zero add hadd k

theorem map_const_replicate {α β : Type} (b : β) :
    ∀ l : List α, l.map (fun _ => b) = List.replicate l.length b
  | [] => rfl
  | _ :: xs => by simp [List.replicate_succ, map_const_replicate b xs]

/-- C9: the empty Global Array. For every group size `size ≥ 1` and `N = 0`, in the
static variant every rank has `start = end = 0` and Partial Sum 0 and the Total Sum is 0;
in the dynamic variant `N = 0` passes the validation, every Local Chunk is empty, every
Partial Sum is 0 and the Total Sum is 0. -/
theorem empty_array_zero (add : Int → Int → Int) (hadd : add 0 0 = 0) (size : Int)
    (hP : 1 ≤ size) (stdin : List Int) :
    (∀ R, 0 ≤ R → R < size →
      SumArrayMpiDefined.start 0 size R = some 0 ∧
      SumArrayMpiDefined.end_ 0 size R = some 0 ∧
      SumArrayMpiDefined.local_sum add [] 0 size R = some 0) ∧
    SumArrayMpiDefined.partial_sums add [] 0 size = some (List.replicate size.toNat 0) ∧
    SumArrayMpiDefined.total_sum add [] 0 size = some 0 ∧
    coordinator size 0 stdin = .done [] ∧
    local_chunks size 0 stdin = .done (List.replicate size.toNat []) ∧
    partial_sums add size 0 stdin = .done (List.replicate size.toNat 0) ∧
    main add size 0 stdin = .done 0 := by
  obtain ⟨p, rfl⟩ := Int.eq_ofNat_of_zero_le (by omega : (0 : Int) ≤ size)
  have hp : 1 ≤ p := by omega
  have hs : ∀ R, SumArrayMpiDefined.start 0 (p : Int) R = some 0 := by
    intro R; rw [startA_eq 0 p R le_rfl hP]; simp
  have he : ∀ R, SumArrayMpiDefined.end_ 0 (p : Int) R = some 0 := by
    intro R; rw [endA_eq 0 p R le_rfl hP]; simp
  have hl : ∀ R, SumArrayMpiDefined.local_sum add [] 0 (p : Int) R = some 0 := by
    intro R
    simp only [SumArrayMpiDefined.local_sum, hs R, he R]
    rw [sumLoop]; simp
  have hps : SumArrayMpiDefined.partial_sums add [] 0 (p : Int)
      = some (List.replicate (p : Int).toNat 0) := by
    rw [SumArrayMpiDefined.partial_sums,
      gather_map_some _ (fun _ => (0 : Int)) _ (fun R _ => hl R), map_const_replicate]
    simp [ranks]
  have hco : coordinator (p : Int) 0 stdin = .done [] := by
    rw [coordinator_done p 0 stdin hP (by simp) (by simp)]; simp
  have hch : local_chunks (p : Int) 0 stdin = .done (List.replicate (p : Int).toNat []) := by
    rw [local_chunks, hco]
    have hd := cDiv_natCast 0 p hp
    simp only [Nat.cast_zero, Nat.zero_div] at hd
    simp only [hd]
    have hsc := MPI_Scatter_eq [] 0 p (by simp)
    simp only [Nat.cast_zero] at hsc
    rw [hsc]
    simp [map_const_replicate]
  have hpb : partial_sums add (p : Int) 0 stdin
      = .done (List.replicate (p : Int).toNat 0) := by
    rw [partial_sums, hch]
    have hd := cDiv_natCast 0 p hp
    simp only [Nat.cast_zero, Nat.zero_div] at hd
    simp only [hd]
    rw [gather_map_some _ (fun _ => (0 : Int))]
    · simp [map_const_replicate]
    · intro c hc
      rw [List.eq_of_mem_replicate hc, local_sum, sumLoop]; simp
  refine ⟨fun R _ _ => ⟨hs R, he R, hl R⟩, hps, ?_, hco, hch, hpb, ?_⟩
  · rw [SumArrayMpiDefined.total_sum, hps]
    simp [reduce_replicate_zero add hadd]
  · rw [main, hpb]
    simp [reduce_replicate_zero add hadd]

/-- C5, witness: `N = 8` on 4 processes; index 5 is in the range of some rank. -/
theorem static_tiling_witness :
    (0 : Int) ≤ 8 ∧ (1 : Int) ≤ 4 ∧
    SumArrayMpiDefined.start 8 4 0 = some 0 ∧
    SumArrayMpiDefined.end_ 8 4 (4 - 1) = some 8 ∧
    ((0 : Int) ≤ 5 ∧ (5 : Int) < 8 ↔ ∃ R s e, 0 ≤ R ∧ R < 4 ∧
      SumArrayMpiDefined.start 8 4 R = some s ∧ SumArrayMpiDefined.end_ 8 4 R = some e ∧
      s ≤ 5 ∧ 5 < e) :=
  ⟨by decide, by decide, (static_tiling 8 4 (by decide) (by decide)).1,
   (static_tiling 8 4 (by decide) (by decide)).2.2.1,
   (static_tiling 8 4 (by decide) (by decide)).2.2.2.2 5⟩

/-- C6, witness: `N = 10` on 4 processes; the last rank gets `10 - 3 * 2 = 2 + 2` elements. -/
theorem static_chunk_sizes_witness :
    (0 : Int) ≤ 10 ∧ (1 : Int) ≤ 4 ∧ (0 : Int) ≤ 3 ∧ (3 : Int) < 4 ∧
    ∃ s e, SumArrayMpiDefined.start 10 4 3 = some s ∧
      SumArrayMpiDefined.end_ 10 4 3 = some e ∧
      ((3 : Int) < 4 - 1 → e - s = 10 / 4) ∧
      ((3 : Int) = 4 - 1 → e - s = 10 - (4 - 1) * (10 / 4) ∧ e - s = 10 / 4 + 10 % 4) :=
  ⟨by decide, by decide, by decide, by decide,
   static_chunk_sizes 10 4 3 (by decide) (by decide) (by decide) (by decide)⟩

/-- C7, witness: the program's array on 3 processes, rank 2. -/
theorem static_never_errors_witness :
    (0 : Int) ≤ 8 ∧ (1 : Int) ≤ 3 ∧ ((SumArrayMpiDefined.arr.length : Int) = 8) ∧
    (0 : Int) ≤ 2 ∧ (2 : Int) < 3 ∧
    SumArrayMpiDefined.elements_per_process 8 3 = some (8 / 3) ∧
    ∃ v, SumArrayMpiDefined.local_sum exactAdd SumArrayMpiDefined.arr 8 3 2 = some v :=
  ⟨by decide, by decide, by decide, by decide, by decide,
   (static_never_errors exactAdd SumArrayMpiDefined.arr 8 3 2 (by decide) (by decide)
      (by decide) (by decide) (by decide)).2.1,
   match (static_never_errors exactAdd SumArrayMpiDefined.arr 8 3 2 (by decide) (by decide)
      (by decide) (by decide) (by decide)).2.2 with
   | ⟨_, _, _, _, _, _, _, _, hv⟩ => hv⟩

/-- C10, witness: `N = 2` on 4 processes. With exact addition the last rank sums
`[5, 7]` to 12; with wrapping addition it sums `[2147483647, 1]` to `-2147483648`. -/
theorem static_degenerate_split_witness :
    (0 : Int) ≤ 2 ∧ (1 : Int) ≤ 4 ∧ ((([5, 7] : List Int).length : Int) = 2) ∧
    ((([2147483647, 1] : List Int).length : Int) = 2) ∧ (2 : Int) < 4 ∧
    SumArrayMpiDefined.elements_per_process 2 4 = some 0 ∧
    SumArrayMpiDefined.local_sum exactAdd [5, 7] 2 4 (4 - 1) = some 12 ∧
    SumArrayMpiDefined.local_sum wrapAdd32 [2147483647, 1] 2 4 (4 - 1)
      = some (-2147483648) :=
  ⟨by decide, by decide, by decide, by decide, by decide,
   ((static_degenerate_split addSem_exact [5, 7] 2 4 (by decide) (by decide)
      (by decide)).1 (by decide)).1,
   ((static_degenerate_split addSem_exact [5, 7] 2 4 (by decide) (by decide)
      (by decide)).1 (by decide)).2.2.2.2.1,
   ((static_degenerate_split addSem_wrap [2147483647, 1] 2 4 (by decide) (by decide)
      (by decide)).1 (by decide)).2.2.2.2.1⟩

/-- C4, witness: `N = 6`, `arr = [1, 2, 3, 4, 5, 6]` on 3 processes. -/
theorem scatter_round_trip_witness :
    (1 : Int) ≤ 3 ∧ (0 : Int) ≤ 6 ∧ (6 : Int) % 3 = 0 ∧
    ((([1, 2, 3, 4, 5, 6] : List Int).length : Int) = 6) ∧
    ∃ chunks, local_chunks 3 6 [1, 2, 3, 4, 5, 6] = .done chunks ∧
      chunks.flatten = [1, 2, 3, 4, 5, 6] :=
  ⟨by decide, by decide, by decide, by decide,
   match scatter_round_trip [1, 2, 3, 4, 5, 6] 6 3 (by decide) (by decide) (by decide)
      (by decide) with
   | ⟨c, h1, _, _, _, h5⟩ => ⟨c, h1, h5⟩⟩

/-- C9, witness: the empty array on 4 processes, exact addition. -/
theorem empty_array_zero_witness :
    exactAdd 0 0 = 0 ∧ (1 : Int) ≤ 4 ∧
    SumArrayMpiDefined.total_sum exactAdd [] 0 4 = some 0 ∧
    main exactAdd 4 0 [] = .done 0 :=
  ⟨by decide, by decide,
   (empty_array_zero exactAdd (by decide) 4 (by decide) []).2.2.1,
   (empty_array_zero exactAdd (by decide) 4 (by decide) []).2.2.2.2.2.2⟩

end SumArrayMpi
